import Mathlib

/-!
Shallow embedding of the segment-rating data model and editing engine of the
audio_rating frontend (`src/frontend/study_coordinator.js`, which contains both
the `StudyCoordinator` class and the `AudioRatingWidget` class).

Times are modelled as rationals (ℚ), rating values as integers (ℤ).  The
JavaScript numbers involved in the claims are produced by exact arithmetic on
small literals, so ℚ/ℤ is the faithful exact model.
-/

/-- A rating segment, as stored in `dimensionData[dim]` in the widget:
`{start, end, value}`. -/
structure Segment where
  start : ℚ
  «end» : ℚ
  value : ℤ
deriving DecidableEq, Repr

/-- `MIN_SEG` from `AudioRatingWidget._onDblClick`: 0.08 seconds. -/
def MIN_SEG : ℚ := 8 / 100

/-- `epsilon` from the boundary-drag branch of
`AudioRatingWidget._onPointerMove`: 0.02 seconds. -/
def EPS : ℚ := 2 / 100

/-- `AudioRatingWidget._findSegmentIndexAtTime`: linear scan returning the first
index `i` with `segments[i].start <= time <= segments[i].end`, `none` when no
segment contains the time (the JS code returns `-1`). -/
def findSegmentIndexAtTime : List Segment → ℚ → Option ℕ
  | [], _ => none
  | s :: rest, t =>
    if s.start ≤ t ∧ t ≤ s.«end» then some 0
    else (findSegmentIndexAtTime rest t).map (· + 1)

/-- The segment-list effect of `AudioRatingWidget._onDblClick` (split at a
time): find the containing segment; if the time is strictly inside it with at
least `MIN_SEG` on both sides, shrink its end to the time and splice in a new
segment `{start: time, end: old end, value: old value}` right after it;
otherwise leave the list unchanged. -/
def dblClickSplit (segs : List Segment) (t : ℚ) : List Segment :=
  match findSegmentIndexAtTime segs t with
  | none => segs
  | some si =>
    match segs[si]? with
    | none => segs
    | some seg =>
      if t - seg.start < MIN_SEG ∨ seg.«end» - t < MIN_SEG then segs
      else
        segs.take si ++
          ([{ seg with «end» := t }, { start := t, «end» := seg.«end», value := seg.value }] ++
            segs.drop (si + 1))

/-- The segment-list effect of `AudioRatingWidget._onContextMenu` once the hit
test has produced a boundary index `i` (the hit test only yields
`1 ≤ i < segments.length`): set `left.end = right.end` and splice segment `i`
out. Out-of-range indices leave the list unchanged. -/
def deleteBoundaryBefore (segs : List Segment) (i : ℕ) : List Segment :=
  if 1 ≤ i ∧ i < segs.length then
    match segs[i - 1]?, segs[i]? with
    | some left, some right =>
      segs.take (i - 1) ++
        ([{ start := left.start, «end» := right.«end», value := left.value }] ++
          segs.drop (i + 1))
    | _, _ => segs
  else segs

/-- The segment-list effect of the boundary-drag branch of
`AudioRatingWidget._onPointerMove` for the active handle index `i`
(`activeHandle.startSeg = i - 1`, `activeHandle.endSeg = i`; the hit test only
yields `1 ≤ i < segments.length`): clamp the target time into
`[left.start + epsilon, right.end - epsilon]` and assign it to both `left.end`
and `right.start`. -/
def moveBoundary (segs : List Segment) (i : ℕ) (t : ℚ) : List Segment :=
  if 1 ≤ i ∧ i < segs.length then
    match segs[i - 1]?, segs[i]? with
    | some left, some right =>
      let newBoundary := max (left.start + EPS) (min (right.«end» - EPS) t)
      segs.take (i - 1) ++
        ([{ left with «end» := newBoundary }, { right with start := newBoundary }] ++
          segs.drop (i + 1))
    | _, _ => segs
  else segs

/-- JavaScript `Math.round`: round half toward positive infinity,
`Math.round x = Math.floor (x + 0.5)`. -/
def jsRound (q : ℚ) : ℤ := ⌊q + 1 / 2⌋

/-- The value computed by the value-drag branch of
`AudioRatingWidget._onPointerMove`: `raw = Math.round(ratio * (num_steps - 1))`,
`raw = Math.max(0, Math.min(num_steps - 1, raw))`, stored value `min + raw`
(`min` from `_getValueRange`, `num_steps = num_values`). -/
def dragValue (numValues minValue : ℤ) (ratio : ℚ) : ℤ :=
  minValue + max 0 (min (numValues - 1) (jsRound (ratio * (numValues - 1))))

/-- `AudioRatingWidget._durationOrOne`: the wavesurfer duration when it is a
nonzero finite number, else `1`. -/
def durationOrOne (d : ℚ) : ℚ := if d = 0 then 1 else d

/-- `AudioRatingWidget._timeToX` for view state `(duration d, total content
width W, scroll offset s)`: `globalX = time / duration * totalWidth`,
`x = globalX - scroll`, clamped to `[-10000, 10000]`. -/
def timeToX (d W s t : ℚ) : ℚ :=
  max (-10000) (min 10000 (t / durationOrOne d * W - s))

/-- `AudioRatingWidget._xToTime` for the same view state:
`((x + scroll) / totalWidth) * duration`, with no clamping. -/
def xToTime (d W s x : ℚ) : ℚ :=
  (x + s) / W * durationOrOne d

/-- Contiguity of two adjacent segments: the left one ends where the right one
starts. -/
def adjOk (a b : Segment) : Prop := a.«end» = b.start

instance (a b : Segment) : Decidable (adjOk a b) := by
  unfold adjOk; infer_instance

/-- The partition invariant of one dimension's segment list, as the spec states
it: first start is 0, last end is the duration (or the `1e9` sentinel) `D`,
consecutive segments share a boundary, and every segment is non-degenerate. -/
def SegInv (segs : List Segment) (D : ℚ) : Prop :=
  segs.head?.map Segment.start = some 0 ∧
  (segs.getLast?).map Segment.«end» = some D ∧
  List.Chain' adjOk segs ∧
  ∀ s ∈ segs, s.start < s.«end»

instance (segs : List Segment) (D : ℚ) : Decidable (SegInv segs D) := by
  unfold SegInv; infer_instance

/-- The partition invariant strengthened with a minimum segment length of
`EPS` (0.02 s): every segment is at least `EPS` long. -/
def SegInvEps (segs : List Segment) (D : ℚ) : Prop :=
  SegInv segs D ∧ ∀ s ∈ segs, EPS ≤ s.«end» - s.start

instance (segs : List Segment) (D : ℚ) : Decidable (SegInvEps segs D) := by
  unfold SegInvEps; infer_instance

/-- A single pointer-driven edit operation on one dimension's segment list. -/
inductive EditOp where
  | split (t : ℚ)
  | merge (i : ℕ)
  | move (i : ℕ) (t : ℚ)
deriving Repr

/-- Apply one edit operation. -/
def applyOp (segs : List Segment) : EditOp → List Segment
  | .split t => dblClickSplit segs t
  | .merge i => deleteBoundaryBefore segs i
  | .move i t => moveBoundary segs i t

/-- Apply a finite sequence of edit operations, left to right. -/
def applyOps (segs : List Segment) (ops : List EditOp) : List Segment :=
  ops.foldl applyOp segs

/-- A rating-dimension descriptor from the study configuration
(`rating_dimensions` entries): `dimension_title`, `num_values`,
`minimal_value`, `default_value`.  `Option` models a JS field that may be
`undefined`. -/
structure Dimension where
  dimension_title : String
  num_values : ℕ
  minimal_value : Option ℤ
  default_value : Option ℤ
deriving DecidableEq, Repr

/-- The default value of a dimension, as computed both in
`StudyCoordinator.getDefaultValueForDimension` and in
`AudioRatingWidget._initData` / `setData`:
`default_value` when present, else `(minimal_value || 0) + Math.floor(num_values / 2)`. -/
def dimDefaultValue (dim : Dimension) : ℤ :=
  match dim.default_value with
  | some v => v
  | none => dim.minimal_value.getD 0 + (dim.num_values / 2 : ℕ)

/-- The single-default-segment form a dimension is initialised to
(`_initData` / the `defaults` block of `setData`): one segment from 0 to the
`1e9` sentinel carrying the dimension's default value. -/
def defaultSegments (dim : Dimension) : List Segment :=
  [{ start := 0, «end» := 10 ^ 9, value := dimDefaultValue dim }]

/-- In-memory `dimensionData`: a JS object mapping dimension title to its
segment list, modelled as an association list in key-insertion order. -/
abbrev DimData : Type := List (String × List Segment)

/-- JS property assignment `o[k] = v` on an object: overwrite the existing
entry in place when the key is present, else append the new entry. -/
def objInsert (k : String) (v : List Segment) (o : DimData) : DimData :=
  if (List.lookup k o).isSome then
    o.map fun p => if p.1 = k then (k, v) else p
  else o ++ [(k, v)]

/-- JS object spread `{...base, ...l}`: copy `base`, then assign every entry of
`l` in order. -/
def spreadMerge (base : DimData) (l : DimData) : DimData :=
  l.foldl (fun o p => objInsert p.1 p.2 o) base

/-- The `defaults` object built at the top of `AudioRatingWidget.setData` (and,
identically, the object built by `_initData`): one default entry per configured
dimension, assigned in configuration order. -/
def buildDefaults (dims : List Dimension) : DimData :=
  spreadMerge [] (dims.map fun dim => (dim.dimension_title, defaultSegments dim))

/-- `AudioRatingWidget.setData(data)`: the new `dimensionData` is the deep copy
of `{...defaults, ...data}` (the deep copy is the identity on our value
model). -/
def setDataMerge (dims : List Dimension) (data : DimData) : DimData :=
  spreadMerge (buildDefaults dims) data

/-- `AudioRatingWidget.getData()`: a deep copy of the current `dimensionData`;
on our value model the deep copy is the identity. -/
def getData (dimensionData : DimData) : DimData := dimensionData

/-- The rows of `AudioRatingWidget._exportCSV`, abstracted from their textual
formatting: one `(dimension, start, end, value)` row per segment, iterating the
dimensions of `dimensionData` in key order. -/
def exportCSVRows (dimensionData : DimData) : List (String × ℚ × ℚ × ℤ) :=
  dimensionData.flatMap fun p => p.2.map fun seg => (p.1, seg.start, seg.«end», seg.value)

/-- `StudyCoordinator.getDefaultValueForDimension`: look the dimension up in
the study configuration by title; warn and return 0 when it is absent. -/
def getDefaultValueForDimension (dims : List Dimension) (name : String) : ℤ :=
  match dims.find? fun d => d.dimension_title = name with
  | none => 0
  | some dim => dimDefaultValue dim

/-- The per-dimension test inside `StudyCoordinator.checkRatingDataComplete`:
a configured dimension is pushed onto `missingDimensions` iff its entry is
absent or empty, or consists of exactly one segment whose value equals the
dimension's default value. -/
def dimensionIsMissing (dims : List Dimension) (ratingData : DimData) (name : String) : Bool :=
  match List.lookup name ratingData with
  | none => true
  | some segs =>
    if segs.length = 0 then true
    else if segs.length > 1 then false
    else
      match segs.head? with
      | none => true
      | some seg => seg.value = getDefaultValueForDimension dims name

/-- `StudyCoordinator.checkRatingDataComplete`, returning the
`missingDimensions` list: every configured dimension when the rating data is
empty, else the configured titles whose data is still default-only. -/
def checkRatingDataComplete (dims : List Dimension) (ratingData : DimData) : List String :=
  if ratingData.length = 0 then dims.map fun dim => dim.dimension_title
  else (dims.map fun dim => dim.dimension_title).filter fun name =>
    dimensionIsMissing dims ratingData name

/-- The `isComplete` flag of `StudyCoordinator.checkRatingDataComplete`:
`missingDimensions.length === 0`. -/
def isComplete (dims : List Dimension) (ratingData : DimData) : Prop :=
  checkRatingDataComplete dims ratingData = []

lemma chain'_adj {l : List Segment} (hc : List.Chain' adjOk l) {i : ℕ} {a b : Segment}
    (ha : l[i]? = some a) (hb : l[i + 1]? = some b) : a.«end» = b.start := by
  obtain ⟨hi, rfl⟩ := List.getElem?_eq_some_iff.mp ha
  obtain ⟨hj, rfl⟩ := List.getElem?_eq_some_iff.mp hb
  have h := List.chain'_iff_get.mp hc i (by omega)
  simpa [adjOk, List.get_eq_getElem] using h

lemma chain'_of_getElem? {l : List Segment}
    (h : ∀ i a b, l[i]? = some a → l[i + 1]? = some b → adjOk a b) :
    List.Chain' adjOk l := by
  rw [List.chain'_iff_get]
  intro i hi
  have h1 : l[i]? = some (l.get ⟨i, by omega⟩) := by
    simp [List.get_eq_getElem, List.getElem?_eq_getElem]
  have h2 : l[i + 1]? = some (l.get ⟨i + 1, by omega⟩) := by
    simp [List.get_eq_getElem, List.getElem?_eq_getElem]
  exact h i _ _ h1 h2

lemma surgery_getElem? (segs mid : List Segment) (i k : ℕ)
    (hik : i + k ≤ segs.length) (j : ℕ) :
    (segs.take i ++ (mid ++ segs.drop (i + k)))[j]? =
      if j < i then segs[j]?
      else if j < i + mid.length then mid[j - i]?
      else segs[j + k - mid.length]? := by
  have hlen : (segs.take i).length = i := by simp; omega
  rw [List.getElem?_append, hlen]
  by_cases h1 : j < i
  · rw [if_pos h1, if_pos h1, List.getElem?_take, if_pos h1]
  · rw [if_neg h1, if_neg h1, List.getElem?_append]
    by_cases h2 : j - i < mid.length
    · rw [if_pos h2, if_pos (by omega)]
    · rw [if_neg h2, if_neg (by omega), List.getElem?_drop]
      congr 1
      omega

lemma surgery_length (segs mid : List Segment) (i k : ℕ) (hik : i + k ≤ segs.length) :
    (segs.take i ++ (mid ++ segs.drop (i + k))).length = segs.length + mid.length - k := by
  simp
  omega

lemma exists_getElem? (l : List Segment) (i : ℕ) (h : i < l.length) :
    ∃ a, l[i]? = some a :=
  ⟨l.get ⟨i, h⟩, by simp [List.getElem?_eq_getElem, List.get_eq_getElem]⟩

lemma surgery_SegInvEps (segs mid : List Segment) (i k : ℕ) (D : ℚ)
    (hk : 1 ≤ k) (hik : i + k ≤ segs.length)
    (hm : 1 ≤ mid.length)
    (hmc : List.Chain' adjOk mid)
    (hstart : ∀ a, segs[i]? = some a → mid[0]?.map Segment.start = some a.start)
    (hend : ∀ b, segs[i + k - 1]? = some b →
      mid[mid.length - 1]?.map Segment.«end» = some b.«end»)
    (heps : ∀ s ∈ mid, EPS ≤ s.«end» - s.start)
    (hinv : SegInvEps segs D) :
    SegInvEps (segs.take i ++ (mid ++ segs.drop (i + k))) D := by
  obtain ⟨⟨hhead, hlast, hchain, _⟩, hseps⟩ := hinv
  have hn : 1 ≤ segs.length := by omega
  set L : List Segment := segs.take i ++ (mid ++ segs.drop (i + k)) with hL
  have hLget : ∀ j, L[j]? =
      if j < i then segs[j]?
      else if j < i + mid.length then mid[j - i]?
      else segs[j + k - mid.length]? := surgery_getElem? segs mid i k hik
  have hLlen : L.length = segs.length + mid.length - k := surgery_length segs mid i k hik
  have epspos : (0 : ℚ) < EPS := by norm_num [EPS]
  -- the head of the new list still starts at 0
  have head0 : L.head?.map Segment.start = some 0 := by
    rw [List.head?_eq_getElem?, hLget 0]
    by_cases hi0 : 0 < i
    · rw [if_pos hi0, ← List.head?_eq_getElem?]
      exact hhead
    · have hi0' : i = 0 := by omega
      rw [if_neg (by omega), if_pos (by omega)]
      obtain ⟨a, ha⟩ := exists_getElem? segs i (by omega)
      have h0 := hstart a ha
      have : a.start = 0 := by
        rw [List.head?_eq_getElem?] at hhead
        rw [hi0'] at ha
        simp [ha] at hhead
        exact hhead
      simpa [this] using h0
  -- the last segment of the new list still ends at D
  have lastD : L.getLast?.map Segment.«end» = some D := by
    rw [List.getLast?_eq_getElem?, hLlen, hLget]
    by_cases hdrop : i + k = segs.length
    · -- the dropped suffix is empty; the last element comes from mid
      rw [if_neg (by omega), if_pos (by omega)]
      obtain ⟨b, hb⟩ := exists_getElem? segs (i + k - 1) (by omega)
      have hD := hend b hb
      have : b.«end» = D := by
        rw [List.getLast?_eq_getElem?] at hlast
        rw [show i + k - 1 = segs.length - 1 by omega] at hb
        simp [hb] at hlast
        exact hlast
      have heq : segs.length + mid.length - k - 1 - i = mid.length - 1 := by omega
      rw [heq]
      simpa [this] using hD
    · -- the last element comes from the untouched suffix of segs
      rw [if_neg (by omega), if_neg (by omega)]
      have heq : segs.length + mid.length - k - 1 + k - mid.length = segs.length - 1 := by
        omega
      rw [heq, ← List.getLast?_eq_getElem?]
      exact hlast
  -- contiguity
  have chainL : List.Chain' adjOk L := by
    apply chain'_of_getElem?
    intro j a b ha hb
    rw [hLget] at ha hb
    by_cases c1 : j + 1 < i
    · rw [if_pos (by omega)] at ha
      rw [if_pos c1] at hb
      exact chain'_adj hchain ha hb
    · by_cases c2 : j + 1 = i
      · -- boundary between the untouched prefix and mid
        rw [if_pos (by omega)] at ha
        rw [if_neg (by omega), if_pos (by omega), show j + 1 - i = 0 by omega] at hb
        obtain ⟨ai, hai⟩ := exists_getElem? segs i (by omega)
        have h1 : a.«end» = ai.start := by
          have := chain'_adj hchain (i := j) ha (by rw [show j + 1 = i from c2]; exact hai)
          exact this
        have h2 := hstart ai hai
        have : b.start = ai.start := by
          simp [hb] at h2
          exact h2
        rw [adjOk, h1, this]
      · by_cases c3 : j + 1 < i + mid.length
        · -- both inside mid
          have hj : i ≤ j := by omega
          rw [if_neg (by omega), if_pos (by omega)] at ha
          rw [if_neg (by omega), if_pos c3, show j + 1 - i = (j - i) + 1 by omega] at hb
          exact chain'_adj hmc ha hb
        · by_cases c4 : j + 1 = i + mid.length
          · -- boundary between mid and the untouched suffix
            rw [if_neg (by omega), if_pos (by omega),
              show j - i = mid.length - 1 by omega] at ha
            rw [if_neg (by omega), if_neg (by omega),
              show j + 1 + k - mid.length = i + k by omega] at hb
            obtain ⟨bi, hbi⟩ := exists_getElem? segs (i + k - 1) (by omega)
            have h1 := hend bi hbi
            have h2 : a.«end» = bi.«end» := by
              simp [ha] at h1
              exact h1
            have h3 : bi.«end» = b.start := by
              refine chain'_adj hchain (i := i + k - 1) hbi ?_
              rw [show i + k - 1 + 1 = i + k by omega]
              exact hb
            rw [adjOk, h2, h3]
          · -- both inside the untouched suffix
            rw [if_neg (by omega), if_neg (by omega)] at ha
            rw [if_neg (by omega), if_neg (by omega),
              show j + 1 + k - mid.length = (j + k - mid.length) + 1 by omega] at hb
            exact chain'_adj hchain ha hb
  -- minimum length (hence non-degeneracy)
  have hepsL : ∀ s ∈ L, EPS ≤ s.«end» - s.start := by
    intro s hs
    rcases List.mem_append.mp hs with h | h
    · exact hseps s (List.take_subset _ _ h)
    · rcases List.mem_append.mp h with h' | h'
      · exact heps s h'
      · exact hseps s (List.drop_subset _ _ h')
  refine ⟨⟨head0, lastD, chainL, fun s hs => ?_⟩, hepsL⟩
  have := hepsL s hs
  linarith [epspos]

lemma findSegmentIndexAtTime_spec (segs : List Segment) (t : ℚ) (i : ℕ)
    (h : findSegmentIndexAtTime segs t = some i) :
    ∃ seg, segs[i]? = some seg ∧ seg.start ≤ t ∧ t ≤ seg.«end» := by
  induction segs generalizing i with
  | nil => rw [findSegmentIndexAtTime] at h; exact Option.noConfusion h
  | cons s rest ih =>
    rw [findSegmentIndexAtTime] at h
    by_cases hc : s.start ≤ t ∧ t ≤ s.«end»
    · rw [if_pos hc] at h
      cases h
      exact ⟨s, by simp, hc.1, hc.2⟩
    · rw [if_neg hc] at h
      cases hfind : findSegmentIndexAtTime rest t with
      | none => rw [hfind] at h; simp at h
      | some j =>
        rw [hfind] at h
        simp only [Option.map_some'] at h
        obtain ⟨seg, hseg, h1, h2⟩ := ih j hfind
        refine ⟨seg, ?_, h1, h2⟩
        have h' : j + 1 = i := Option.some.inj h
        rw [← h']
        simpa using hseg

lemma dblClickSplit_SegInvEps (segs : List Segment) (t D : ℚ)
    (hinv : SegInvEps segs D) : SegInvEps (dblClickSplit segs t) D := by
  rw [dblClickSplit]
  cases hfind : findSegmentIndexAtTime segs t with
  | none => exact hinv
  | some si =>
    obtain ⟨seg, hseg, hst, hte⟩ := findSegmentIndexAtTime_spec segs t si hfind
    dsimp only
    rw [hseg]
    dsimp only
    by_cases hg : t - seg.start < MIN_SEG ∨ seg.«end» - t < MIN_SEG
    · rw [if_pos hg]; exact hinv
    · rw [if_neg hg]
      push_neg at hg
      obtain ⟨hg1, hg2⟩ := hg
      have hsilen : si + 1 ≤ segs.length := by
        obtain ⟨h, _⟩ := List.getElem?_eq_some_iff.mp hseg
        omega
      refine surgery_SegInvEps segs _ si 1 D (by norm_num) hsilen (by simp) ?_ ?_ ?_ ?_ hinv
      · simp [adjOk]
      · intro a ha
        rw [hseg] at ha
        cases ha
        simp
      · intro b hb
        rw [show si + 1 - 1 = si by omega, hseg] at hb
        cases hb
        simp
      · intro s hs
        have hES : EPS ≤ MIN_SEG := by norm_num [EPS, MIN_SEG]
        simp only [List.mem_cons, List.not_mem_nil, or_false] at hs
        rcases hs with rfl | rfl
        · simp
          linarith
        · simp
          linarith

lemma deleteBoundaryBefore_SegInvEps (segs : List Segment) (i : ℕ) (D : ℚ)
    (hinv : SegInvEps segs D) : SegInvEps (deleteBoundaryBefore segs i) D := by
  rw [deleteBoundaryBefore]
  by_cases hg : 1 ≤ i ∧ i < segs.length
  · rw [if_pos hg]
    obtain ⟨left, hleft⟩ := exists_getElem? segs (i - 1) (by omega)
    obtain ⟨right, hright⟩ := exists_getElem? segs i (by omega)
    rw [hleft, hright]
    dsimp only
    have hadj : left.«end» = right.start := by
      refine chain'_adj hinv.1.2.2.1 (i := i - 1) hleft ?_
      rw [show i - 1 + 1 = i by omega]
      exact hright
    have hml : left ∈ segs := by
      obtain ⟨h, he⟩ := List.getElem?_eq_some_iff.mp hleft
      rw [← he]; exact List.getElem_mem h
    have hmr : right ∈ segs := by
      obtain ⟨h, he⟩ := List.getElem?_eq_some_iff.mp hright
      rw [← he]; exact List.getElem_mem h
    have hel := hinv.2 left hml
    have her := hinv.2 right hmr
    have epspos : (0 : ℚ) < EPS := by norm_num [EPS]
    have := surgery_SegInvEps segs
      [{ start := left.start, «end» := right.«end», value := left.value }]
      (i - 1) 2 D (by norm_num) (by omega) (by simp) (by simp)
      ?_ ?_ ?_ hinv
    · rw [show i - 1 + 2 = i + 1 by omega] at this
      exact this
    · intro a ha
      rw [hleft] at ha
      cases ha
      simp
    · intro b hb
      rw [show i - 1 + 2 - 1 = i by omega, hright] at hb
      cases hb
      simp
    · intro s hs
      simp only [List.mem_singleton] at hs
      subst hs
      simp
      linarith
  · rw [if_neg hg]; exact hinv

lemma moveBoundary_SegInvEps (segs : List Segment) (i : ℕ) (t D : ℚ)
    (hinv : SegInvEps segs D) : SegInvEps (moveBoundary segs i t) D := by
  rw [moveBoundary]
  by_cases hg : 1 ≤ i ∧ i < segs.length
  · rw [if_pos hg]
    obtain ⟨left, hleft⟩ := exists_getElem? segs (i - 1) (by omega)
    obtain ⟨right, hright⟩ := exists_getElem? segs i (by omega)
    rw [hleft, hright]
    dsimp only
    have hadj : left.«end» = right.start := by
      refine chain'_adj hinv.1.2.2.1 (i := i - 1) hleft ?_
      rw [show i - 1 + 1 = i by omega]
      exact hright
    have hml : left ∈ segs := by
      obtain ⟨h, he⟩ := List.getElem?_eq_some_iff.mp hleft
      rw [← he]; exact List.getElem_mem h
    have hmr : right ∈ segs := by
      obtain ⟨h, he⟩ := List.getElem?_eq_some_iff.mp hright
      rw [← he]; exact List.getElem_mem h
    have hel := hinv.2 left hml
    have her := hinv.2 right hmr
    have epspos : (0 : ℚ) < EPS := by norm_num [EPS]
    set nb := max (left.start + EPS) (min (right.«end» - EPS) t) with hnb
    have hspan : left.start + EPS ≤ right.«end» - EPS := by linarith
    have hnb1 : left.start + EPS ≤ nb := le_max_left _ _
    have hnb2 : nb ≤ right.«end» - EPS := max_le hspan (min_le_left _ _)
    have := surgery_SegInvEps segs
      [{ left with «end» := nb }, { right with start := nb }]
      (i - 1) 2 D (by norm_num) (by omega) (by simp) ?_ ?_ ?_ ?_ hinv
    · rw [show i - 1 + 2 = i + 1 by omega] at this
      exact this
    · simp [adjOk]
    · intro a ha
      rw [hleft] at ha
      cases ha
      simp
    · intro b hb
      rw [show i - 1 + 2 - 1 = i by omega, hright] at hb
      cases hb
      simp
    · intro s hs
      simp only [List.mem_cons, List.not_mem_nil, or_false] at hs
      rcases hs with rfl | rfl
      · simp
        linarith
      · simp
        linarith
  · rw [if_neg hg]; exact hinv

lemma applyOp_SegInvEps (segs : List Segment) (op : EditOp) (D : ℚ)
    (hinv : SegInvEps segs D) : SegInvEps (applyOp segs op) D := by
  cases op with
  | split t => exact dblClickSplit_SegInvEps segs t D hinv
  | merge i => exact deleteBoundaryBefore_SegInvEps segs i D hinv
  | move i t => exact moveBoundary_SegInvEps segs i t D hinv

lemma applyOps_SegInvEps (segs : List Segment) (ops : List EditOp) (D : ℚ)
    (hinv : SegInvEps segs D) : SegInvEps (applyOps segs ops) D := by
  induction ops generalizing segs with
  | nil => exact hinv
  | cons op rest ih => exact ih _ (applyOp_SegInvEps segs op D hinv)

lemma lookup_cons_eq (a : String) (b : List Segment) (es : DimData) (k : String) :
    List.lookup k ((a, b) :: es) = if k = a then some b else List.lookup k es := by
  rw [List.lookup_cons]
  by_cases h : k = a
  · simp [h]
  · have hb : (k == a) = false := by simp [h]
    rw [hb, if_neg h]

lemma lookup_map_overwrite (o : DimData) (k : String) (v : List Segment) (k' : String) :
    List.lookup k' (o.map fun p => if p.1 = k then (k, v) else p) =
      if k' = k then (if (List.lookup k o).isSome then some v else none)
      else List.lookup k' o := by
  induction o with
  | nil => simp
  | cons p rest ih =>
    obtain ⟨a, b⟩ := p
    by_cases hak : a = k
    · by_cases hkk : k' = k
      · simp [lookup_cons_eq, hak, hkk, ih]
      · simp [lookup_cons_eq, hak, hkk, ih]
    · by_cases hk' : k' = a
      · have hkk : ¬ (k' = k) := by rw [hk']; exact hak
        simp [lookup_cons_eq, hak, hk', hkk, ih]
      · by_cases hkk : k' = k
        · subst hkk
          simp [lookup_cons_eq, hak, hk', ih]
          rw [lookup_cons_eq, if_neg hk']
        · simp [lookup_cons_eq, hak, hk', hkk, ih]

lemma lookup_objInsert (o : DimData) (k k' : String) (v : List Segment) :
    List.lookup k' (objInsert k v o) = if k' = k then some v else List.lookup k' o := by
  unfold objInsert
  by_cases hs : (List.lookup k o).isSome
  · rw [if_pos hs, lookup_map_overwrite, if_pos hs]
  · rw [if_neg hs, List.lookup_append]
    by_cases hk : k' = k
    · subst hk
      have hnone : List.lookup k' o = none := by
        cases h : List.lookup k' o
        · rfl
        · rw [h] at hs; simp at hs
      rw [hnone, if_pos rfl, lookup_cons_eq, if_pos rfl]
      simp
    · rw [if_neg hk, lookup_cons_eq, if_neg hk]
      cases h : List.lookup k' o <;> simp

lemma lookup_spreadMerge_none (base l : DimData) (k : String)
    (h : List.lookup k l = none) :
    List.lookup k (spreadMerge base l) = List.lookup k base := by
  induction l generalizing base with
  | nil => rfl
  | cons p rest ih =>
    obtain ⟨a, b⟩ := p
    rw [lookup_cons_eq] at h
    have hka : ¬ (k = a) := by
      intro hk
      rw [if_pos hk] at h
      exact Option.noConfusion h
    rw [if_neg hka] at h
    show List.lookup k (spreadMerge (objInsert a b base) rest) = _
    rw [ih _ h, lookup_objInsert, if_neg hka]

lemma lookup_spreadMerge (base l : DimData) (k : String)
    (hnd : (l.map Prod.fst).Nodup) :
    List.lookup k (spreadMerge base l) = (List.lookup k l).or (List.lookup k base) := by
  induction l generalizing base with
  | nil => simp [spreadMerge]
  | cons p rest ih =>
    obtain ⟨a, b⟩ := p
    simp only [List.map_cons, List.nodup_cons] at hnd
    obtain ⟨ha, hnd'⟩ := hnd
    show List.lookup k (spreadMerge (objInsert a b base) rest) = _
    rw [ih _ hnd', lookup_objInsert, lookup_cons_eq]
    by_cases hk : k = a
    · have hrest : List.lookup k rest = none := by
        rw [List.lookup_eq_none_iff]
        intro q hq
        simp only [bne_iff_ne]
        intro he
        rw [hk] at he
        exact ha (by rw [he]; exact List.mem_map_of_mem _ hq)
      rw [hrest, if_pos hk, if_pos hk]
      simp
    · rw [if_neg hk, if_neg hk]

lemma lookup_defaults_map (dims : List Dimension) (d : Dimension) (hd : d ∈ dims)
    (hnd : (dims.map Dimension.dimension_title).Nodup) :
    List.lookup d.dimension_title
      (dims.map fun dim => (dim.dimension_title, defaultSegments dim)) =
      some (defaultSegments d) := by
  induction dims with
  | nil => simp at hd
  | cons d0 rest ih =>
    simp only [List.map_cons, List.nodup_cons] at hnd
    obtain ⟨h0, hnd'⟩ := hnd
    rcases List.mem_cons.mp hd with rfl | hmem
    · rw [List.map_cons, lookup_cons_eq, if_pos rfl]
    · have hne : ¬ (d.dimension_title = d0.dimension_title) := by
        intro he
        exact h0 (by rw [← he]; exact List.mem_map_of_mem _ hmem)
      rw [List.map_cons, lookup_cons_eq, if_neg hne]
      exact ih hmem hnd'

lemma lookup_buildDefaults (dims : List Dimension) (d : Dimension) (hd : d ∈ dims)
    (hnd : (dims.map Dimension.dimension_title).Nodup) :
    List.lookup d.dimension_title (buildDefaults dims) = some (defaultSegments d) := by
  unfold buildDefaults
  have hkeys : ((dims.map fun dim => (dim.dimension_title, defaultSegments dim)).map
      Prod.fst).Nodup := by
    rw [List.map_map]
    exact hnd
  rw [lookup_spreadMerge _ _ _ hkeys, lookup_defaults_map dims d hd hnd]
  simp

lemma lookup_buildDefaults_none (dims : List Dimension) (k : String)
    (h : ∀ d ∈ dims, ¬ (d.dimension_title = k)) :
    List.lookup k (buildDefaults dims) = none := by
  unfold buildDefaults
  rw [lookup_spreadMerge_none]
  · rfl
  · rw [List.lookup_eq_none_iff]
    intro p hp
    simp only [List.mem_map] at hp
    obtain ⟨d, hd, rfl⟩ := hp
    simp only [bne_iff_ne]
    intro he
    exact h d hd he.symm

lemma lookup_mem (l : DimData) (k : String) (v : List Segment)
    (h : List.lookup k l = some v) : (k, v) ∈ l := by
  induction l with
  | nil => simp at h
  | cons p rest ih =>
    obtain ⟨a, b⟩ := p
    rw [lookup_cons_eq] at h
    by_cases hk : k = a
    · rw [if_pos hk] at h
      cases h
      subst hk
      exact List.mem_cons_self _ _
    · rw [if_neg hk] at h
      exact List.mem_cons_of_mem _ (ih h)

/-- C1 (amended): starting from any segment list satisfying the partition
invariant strengthened with a minimum segment length of `EPS` (0.02 s), any
finite sequence of split / boundary-deletion / boundary-move operations
preserves the strengthened invariant: first start 0, last end unchanged,
contiguous boundaries, every segment at least `EPS` long (hence strictly
increasing boundaries). -/
theorem partition_invariant_preserved (segs : List Segment) (D : ℚ) (ops : List EditOp)
    (hinv : SegInvEps segs D) : SegInvEps (applyOps segs ops) D :=
  applyOps_SegInvEps segs ops D hinv

/-- C1 witness at a concrete input. -/
theorem partition_invariant_preserved_witness :
    SegInvEps [⟨0, 10 ^ 9, 4⟩] (10 ^ 9) ∧
    SegInvEps (applyOps [⟨0, 10 ^ 9, 4⟩]
      [EditOp.split 5, EditOp.move 1 6, EditOp.merge 1]) (10 ^ 9) :=
  ⟨by norm_num [SegInvEps, SegInv, adjOk, EPS],
   partition_invariant_preserved [⟨0, 10 ^ 9, 4⟩] (10 ^ 9)
     [EditOp.split 5, EditOp.move 1 6, EditOp.merge 1]
     (by norm_num [SegInvEps, SegInv, adjOk, EPS])⟩

/-- C1 counterexample: a list satisfying the (un-strengthened) partition
invariant on which a single boundary-move operation breaks the invariant. -/
theorem partition_invariant_counterexample :
    SegInv [⟨0, 1 / 250, 0⟩, ⟨1 / 250, 1 / 125, 0⟩] (1 / 125) ∧
    ¬ SegInv (applyOp [⟨0, 1 / 250, 0⟩, ⟨1 / 250, 1 / 125, 0⟩] (EditOp.move 1 0))
      (1 / 125) := by
  constructor
  · norm_num [SegInv, adjOk]
  · norm_num [SegInv, adjOk, applyOp, moveBoundary, EPS, min_def, max_def]

/-- C2: double-click split. When the time lies in a found segment with at least
`MIN_SEG` margin on both sides, the segment's end shrinks to the time and a new
segment `{start: time, end: old end, value: old value}` is inserted immediately
after it, growing the list by exactly one; otherwise (margin violated, or no
containing segment) the list is returned unchanged. -/
theorem split_spec (segs : List Segment) (t : ℚ) :
    (∀ i seg, findSegmentIndexAtTime segs t = some i → segs[i]? = some seg →
      MIN_SEG ≤ t - seg.start → MIN_SEG ≤ seg.«end» - t →
        dblClickSplit segs t =
          segs.take i ++
            ([{ seg with «end» := t },
              { start := t, «end» := seg.«end», value := seg.value }] ++
              segs.drop (i + 1)) ∧
        (dblClickSplit segs t).length = segs.length + 1) ∧
    (∀ i seg, findSegmentIndexAtTime segs t = some i → segs[i]? = some seg →
      (t - seg.start < MIN_SEG ∨ seg.«end» - t < MIN_SEG) →
        dblClickSplit segs t = segs) ∧
    (findSegmentIndexAtTime segs t = none → dblClickSplit segs t = segs) := by
  refine ⟨?_, ?_, ?_⟩
  · intro i seg hfind hseg h1 h2
    have heq : dblClickSplit segs t =
        segs.take i ++
          ([{ seg with «end» := t },
            { start := t, «end» := seg.«end», value := seg.value }] ++
            segs.drop (i + 1)) := by
      rw [dblClickSplit, hfind]
      dsimp only
      rw [hseg]
      dsimp only
      rw [if_neg (by push_neg; exact ⟨h1, h2⟩)]
    refine ⟨heq, ?_⟩
    rw [heq]
    have hi : i < segs.length := (List.getElem?_eq_some_iff.mp hseg).1
    simp
    omega
  · intro i seg hfind hseg hviol
    rw [dblClickSplit, hfind]
    dsimp only
    rw [hseg]
    dsimp only
    rw [if_pos hviol]
  · intro hfind
    rw [dblClickSplit, hfind]

/-- C2 witness at a concrete input: a valid split, a refused split too close to
a boundary, and a time outside every segment. -/
theorem split_spec_witness :
    dblClickSplit [⟨0, 10, 4⟩] 5 = [⟨0, 5, 4⟩, ⟨5, 10, 4⟩] ∧
    dblClickSplit [⟨0, 10, 4⟩] (1 / 100) = [⟨0, 10, 4⟩] ∧
    dblClickSplit [⟨0, 10, 4⟩] 11 = [⟨0, 10, 4⟩] := by
  refine ⟨?_, ?_, ?_⟩
  · have h := (split_spec [⟨0, 10, 4⟩] 5).1 0 ⟨0, 10, 4⟩
      (by norm_num [findSegmentIndexAtTime]) (by norm_num)
      (by norm_num [MIN_SEG]) (by norm_num [MIN_SEG])
    simpa using h.1
  · exact (split_spec [⟨0, 10, 4⟩] (1 / 100)).2.1 0 ⟨0, 10, 4⟩
      (by norm_num [findSegmentIndexAtTime]) (by norm_num)
      (by norm_num [MIN_SEG])
  · exact (split_spec [⟨0, 10, 4⟩] 11).2.2 (by norm_num [findSegmentIndexAtTime])

/-- C3: deleting the boundary before segment `i` (with `1 ≤ i < length`)
merges segments `i-1` and `i` into one spanning their union, keeps the left
segment's value, removes segment `i`, decreases the count by exactly one, and
leaves all other segments unchanged. -/
theorem merge_spec (segs : List Segment) (i : ℕ) (left right : Segment)
    (h1 : 1 ≤ i) (h2 : i < segs.length)
    (hl : segs[i - 1]? = some left) (hr : segs[i]? = some right) :
    deleteBoundaryBefore segs i =
      segs.take (i - 1) ++
        ([{ start := left.start, «end» := right.«end», value := left.value }] ++
          segs.drop (i + 1)) ∧
    (deleteBoundaryBefore segs i).length + 1 = segs.length := by
  have heq : deleteBoundaryBefore segs i =
      segs.take (i - 1) ++
        ([{ start := left.start, «end» := right.«end», value := left.value }] ++
          segs.drop (i + 1)) := by
    rw [deleteBoundaryBefore, if_pos ⟨h1, h2⟩, hl, hr]
  refine ⟨heq, ?_⟩
  rw [heq]
  simp
  omega

/-- C3 witness at a concrete input. -/
theorem merge_spec_witness :
    deleteBoundaryBefore [⟨0, 4, 7⟩, ⟨4, 10, 2⟩] 1 = [⟨0, 10, 7⟩] ∧
    (deleteBoundaryBefore [⟨0, 4, 7⟩, ⟨4, 10, 2⟩] 1).length + 1 = 2 := by
  have h := merge_spec [⟨0, 4, 7⟩, ⟨4, 10, 2⟩] 1 ⟨0, 4, 7⟩ ⟨4, 10, 2⟩
    (by norm_num) (by norm_num) (by norm_num) (by norm_num)
  exact ⟨by simpa using h.1, h.2⟩

/-- C4: for any dimension with at least two values and any raw drag ratio
(including ratios outside `[0, 1]`), the stored value is an integer within
`[minValue, minValue + numValues - 1]`. -/
theorem value_clamp (n m : ℤ) (r : ℚ) (hn : 2 ≤ n) :
    m ≤ dragValue n m r ∧ dragValue n m r ≤ m + (n - 1) := by
  unfold dragValue
  have h0 : (0 : ℤ) ≤ max 0 (min (n - 1) (jsRound (r * (n - 1)))) := le_max_left _ _
  have h1 : max 0 (min (n - 1) (jsRound (r * (n - 1)))) ≤ n - 1 :=
    max_le (by omega) (min_le_left _ _)
  omega

/-- C4 witness: a ratio that maps below 0 clamps to the minimum, a ratio above
1 clamps to the maximum. -/
theorem value_clamp_witness :
    (-2 : ℤ) ≤ dragValue 5 (-2) (-3 / 5) ∧ dragValue 5 (-2) (-3 / 5) ≤ -2 + (5 - 1) ∧
    dragValue 5 (-2) (-3 / 5) = -2 ∧ dragValue 5 (-2) (7 / 5) = 2 := by
  have h := value_clamp 5 (-2) (-3 / 5) (by norm_num)
  refine ⟨h.1, h.2, ?_, ?_⟩
  · norm_num [dragValue, jsRound]
  · norm_num [dragValue, jsRound]

/-- C5 (amended): when the two adjacent segments around boundary `i` span at
least `2 * EPS` (in particular whenever both are at least `EPS` long), the
boundary move clamps the target into `[left.start + EPS, right.end - EPS]` and
assigns it to `left.end` and `right.start`, so both segments keep length at
least `EPS`, the outer endpoints are unchanged, and order is preserved. -/
theorem move_boundary_spec (segs : List Segment) (i : ℕ) (t : ℚ)
    (left right : Segment)
    (h1 : 1 ≤ i) (h2 : i < segs.length)
    (hl : segs[i - 1]? = some left) (hr : segs[i]? = some right)
    (hspan : left.start + EPS ≤ right.«end» - EPS) :
    left.start + EPS ≤ max (left.start + EPS) (min (right.«end» - EPS) t) ∧
    max (left.start + EPS) (min (right.«end» - EPS) t) ≤ right.«end» - EPS ∧
    moveBoundary segs i t =
      segs.take (i - 1) ++
        ([{ left with «end» := max (left.start + EPS) (min (right.«end» - EPS) t) },
          { right with start := max (left.start + EPS) (min (right.«end» - EPS) t) }] ++
          segs.drop (i + 1)) := by
  refine ⟨le_max_left _ _, max_le hspan (min_le_left _ _), ?_⟩
  rw [moveBoundary, if_pos ⟨h1, h2⟩, hl, hr]

/-- C5 witness at a concrete input: an out-of-range target clamps to the lower
bound of the epsilon interval. -/
theorem move_boundary_spec_witness :
    moveBoundary [⟨0, 4, 7⟩, ⟨4, 10, 2⟩] 1 (-50) =
      [⟨0, 1 / 50, 7⟩, ⟨1 / 50, 10, 2⟩] := by
  have h := move_boundary_spec [⟨0, 4, 7⟩, ⟨4, 10, 2⟩] 1 (-50) ⟨0, 4, 7⟩ ⟨4, 10, 2⟩
    (by norm_num) (by norm_num) (by norm_num) (by norm_num)
    (by norm_num [EPS])
  rw [h.2.2]
  norm_num [EPS, min_def, max_def]

/-- C5 counterexample: two adjacent non-degenerate segments spanning less than
`2 * EPS`; the move produces a right segment with `end < start`, so the claimed
"strictly positive length of at least epsilon" and order preservation fail. -/
theorem move_boundary_counterexample :
    moveBoundary [⟨0, 1 / 250, 0⟩, ⟨1 / 250, 1 / 125, 0⟩] 1 0 =
      [⟨0, 1 / 50, 0⟩, ⟨1 / 50, 1 / 125, 0⟩] ∧
    ((1 : ℚ) / 125 - 1 / 50 < 0) := by
  constructor
  · norm_num [moveBoundary, EPS, min_def, max_def]
  · norm_num

/-- C9: with a positive duration and width, `timeToX` is the linear map clamped
only to `[-10000, 10000]` and `xToTime` is its exact inverse wherever the
unclamped image lies within that bound; with duration 0 both maps substitute 1
for the duration. -/
theorem time_mapping_round_trip (d W s t : ℚ) (hd : 0 < d) (hW : 0 < W)
    (hlo : -10000 ≤ t / d * W - s) (hhi : t / d * W - s ≤ 10000) :
    xToTime d W s (timeToX d W s t) = t ∧
    (∀ u, timeToX 0 W s u = timeToX 1 W s u) ∧
    (∀ x, xToTime 0 W s x = xToTime 1 W s x) := by
  refine ⟨?_, ?_, ?_⟩
  · have hdo : durationOrOne d = d := by
      rw [durationOrOne, if_neg (by linarith)]
    rw [timeToX, xToTime, hdo, min_eq_right hhi, max_eq_right hlo]
    field_simp
    ring
  · intro u
    rw [timeToX, timeToX, durationOrOne, durationOrOne, if_pos rfl, if_neg one_ne_zero]
  · intro x
    rw [xToTime, xToTime, durationOrOne, durationOrOne, if_pos rfl, if_neg one_ne_zero]

/-- C9 witness at a concrete view state. -/
theorem time_mapping_round_trip_witness :
    xToTime 2 100 3 (timeToX 2 100 3 1) = 1 := by
  have h := time_mapping_round_trip 2 100 3 1 (by norm_num) (by norm_num)
    (by norm_num) (by norm_num)
  exact h.1

/-- C6: when the in-memory DimensionData has an entry for every configured
dimension (and, being a JS object, no duplicate keys), `setData (getData ...)`
leaves every lookup unchanged: the merged map is structurally the same map. -/
theorem set_get_round_trip (dims : List Dimension) (data : DimData)
    (hnd : (data.map Prod.fst).Nodup)
    (hall : ∀ d ∈ dims, (List.lookup d.dimension_title data).isSome) :
    ∀ k, List.lookup k (setDataMerge dims (getData data)) = List.lookup k data := by
  intro k
  rw [setDataMerge, getData, lookup_spreadMerge _ _ _ hnd]
  cases hcase : List.lookup k data with
  | some v => simp
  | none =>
    simp only [Option.none_or]
    apply lookup_buildDefaults_none
    intro d hd he
    have := hall d hd
    rw [he, hcase] at this
    simp at this

/-- C6 witness at a concrete configuration and data. -/
theorem set_get_round_trip_witness :
    List.lookup "valence"
      (setDataMerge [⟨"valence", 8, some 0, some 4⟩]
        (getData [("valence", [⟨0, 10, 5⟩])])) =
      List.lookup "valence" [("valence", [⟨0, 10, 5⟩])] := by
  have h := set_get_round_trip [⟨"valence", 8, some 0, some 4⟩]
    [("valence", [⟨0, 10, 5⟩])]
    (by simp)
    (by intro d hd; simp at hd; subst hd; simp [List.lookup])
  exact h "valence"

/-- C7: after `setData payload`, every configured dimension is present: absent
dimensions get their single-default-segment form (one segment from 0 to the
`1e9` sentinel at the dimension's default value), present dimensions take
exactly the payload's segment list. -/
theorem set_data_defaults (dims : List Dimension) (payload : DimData) (d : Dimension)
    (hnd : (dims.map Dimension.dimension_title).Nodup)
    (hpnd : (payload.map Prod.fst).Nodup)
    (hd : d ∈ dims) :
    List.lookup d.dimension_title (setDataMerge dims payload) =
      some ((List.lookup d.dimension_title payload).getD (defaultSegments d)) := by
  rw [setDataMerge, lookup_spreadMerge _ _ _ hpnd]
  cases hcase : List.lookup d.dimension_title payload with
  | some v => simp
  | none =>
    simp only [Option.none_or, Option.getD_none]
    exact lookup_buildDefaults dims d hd hnd

/-- C7 witness: one dimension restored from the payload, one filled with its
default single segment. -/
theorem set_data_defaults_witness :
    List.lookup "valence"
      (setDataMerge [⟨"valence", 8, some 0, some 4⟩, ⟨"arousal", 5, some (-2), none⟩]
        [("valence", [⟨0, 10, 5⟩])]) = some [⟨0, 10, 5⟩] ∧
    List.lookup "arousal"
      (setDataMerge [⟨"valence", 8, some 0, some 4⟩, ⟨"arousal", 5, some (-2), none⟩]
        [("valence", [⟨0, 10, 5⟩])]) = some [⟨0, 10 ^ 9, 0⟩] := by
  constructor
  · have h := set_data_defaults [⟨"valence", 8, some 0, some 4⟩, ⟨"arousal", 5, some (-2), none⟩]
      [("valence", [⟨0, 10, 5⟩])] ⟨"valence", 8, some 0, some 4⟩
      (by simp) (by simp) (by simp)
    rw [h]
    simp [List.lookup]
  · have h := set_data_defaults [⟨"valence", 8, some 0, some 4⟩, ⟨"arousal", 5, some (-2), none⟩]
      [("valence", [⟨0, 10, 5⟩])] ⟨"arousal", 5, some (-2), none⟩
      (by simp) (by simp) (by simp)
    rw [h]
    simp [List.lookup, defaultSegments, dimDefaultValue]

/-- C10: every key of the payload — configured or not — survives `setData`
with exactly the payload's segment list, is returned by `getData`, and each of
its segments is emitted as a row of the CSV export. -/
theorem unknown_keys_preserved (dims : List Dimension) (payload : DimData) (k : String)
    (hpnd : (payload.map Prod.fst).Nodup)
    (hk : (List.lookup k payload).isSome) :
    List.lookup k (getData (setDataMerge dims payload)) = List.lookup k payload ∧
    ∀ segs, List.lookup k payload = some segs →
      ∀ s ∈ segs, (k, s.start, s.«end», s.value) ∈ exportCSVRows (setDataMerge dims payload) := by
  have hlook : List.lookup k (setDataMerge dims payload) = List.lookup k payload := by
    rw [setDataMerge, lookup_spreadMerge _ _ _ hpnd]
    cases hcase : List.lookup k payload with
    | some v => simp
    | none => rw [hcase] at hk; simp at hk
  refine ⟨hlook, ?_⟩
  intro segs hsegs s hs
  have hmem : (k, segs) ∈ setDataMerge dims payload :=
    lookup_mem _ _ _ (by rw [hlook, hsegs])
  rw [exportCSVRows]
  rw [List.mem_flatMap]
  exact ⟨(k, segs), hmem, List.mem_map_of_mem _ hs⟩

/-- C10 witness: a payload key that matches no configured dimension. -/
theorem unknown_keys_preserved_witness :
    List.lookup "tempo"
      (getData (setDataMerge [⟨"valence", 8, some 0, some 4⟩] [("tempo", [⟨0, 3, 1⟩])])) =
      some [⟨0, 3, 1⟩] ∧
    ("tempo", (0 : ℚ), (3 : ℚ), (1 : ℤ)) ∈
      exportCSVRows (setDataMerge [⟨"valence", 8, some 0, some 4⟩] [("tempo", [⟨0, 3, 1⟩])]) := by
  have h := unknown_keys_preserved [⟨"valence", 8, some 0, some 4⟩]
    [("tempo", [⟨0, 3, 1⟩])] "tempo" (by simp) (by simp [List.lookup])
  constructor
  · rw [h.1]
    simp [List.lookup]
  · exact h.2 [⟨0, 3, 1⟩] (by simp [List.lookup]) ⟨0, 3, 1⟩ (by simp)

lemma dimensionIsMissing_iff (dims : List Dimension) (data : DimData) (name : String) :
    dimensionIsMissing dims data name = true ↔
      (List.lookup name data = none ∨ List.lookup name data = some [] ∨
       ∃ s : Segment, List.lookup name data = some [s] ∧
         s.value = getDefaultValueForDimension dims name) := by
  rw [dimensionIsMissing]
  cases hcase : List.lookup name data with
  | none => simp
  | some segs =>
    match segs with
    | [] => simp
    | [s] => simp
    | s1 :: s2 :: rest => simp

/-- C8 (amended): a configured dimension is reported missing iff its entry is
absent or empty, or consists of exactly one segment whose value equals the
dimension's default; and overall completeness holds exactly when the missing
list is empty. -/
theorem completeness_missing_iff (dims : List Dimension) (data : DimData) (d : Dimension)
    (hd : d ∈ dims) :
    (d.dimension_title ∈ checkRatingDataComplete dims data ↔
      (List.lookup d.dimension_title data = none ∨
       List.lookup d.dimension_title data = some [] ∨
       ∃ s : Segment, List.lookup d.dimension_title data = some [s] ∧
         s.value = getDefaultValueForDimension dims d.dimension_title)) ∧
    (isComplete dims data ↔ checkRatingDataComplete dims data = []) := by
  refine ⟨?_, Iff.rfl⟩
  have htitle : d.dimension_title ∈ dims.map fun dim => dim.dimension_title :=
    List.mem_map_of_mem _ hd
  rw [checkRatingDataComplete]
  by_cases hdata : data.length = 0
  · rw [if_pos hdata]
    have hdnil : data = [] := List.length_eq_zero.mp hdata
    subst hdnil
    simp only [List.lookup_nil]
    constructor
    · intro _
      simp
    · intro _
      exact htitle
  · rw [if_neg hdata, List.mem_filter]
    rw [← dimensionIsMissing_iff dims data d.dimension_title]
    exact ⟨fun h => h.2, fun h => ⟨htitle, h⟩⟩

/-- C8 witness: a dimension left at its single default segment is reported
missing. -/
theorem completeness_missing_iff_witness :
    "valence" ∈ checkRatingDataComplete [⟨"valence", 8, some 0, some 4⟩]
      [("valence", [⟨0, 10, 4⟩])] := by
  have h := completeness_missing_iff [⟨"valence", 8, some 0, some 4⟩]
    [("valence", [⟨0, 10, 4⟩])] ⟨"valence", 8, some 0, some 4⟩ (by simp)
  refine h.1.mpr (Or.inr (Or.inr ⟨⟨0, 10, 4⟩, ?_, ?_⟩))
  · simp [List.lookup]
  · simp [getDefaultValueForDimension, dimDefaultValue]

/-- C8 counterexample: a configured dimension whose entry is the empty list is
reported missing by the code, while the claimed criterion ("exactly one
segment at the default value") does not hold there. -/
theorem completeness_counterexample :
    "valence" ∈ checkRatingDataComplete [⟨"valence", 8, some 0, some 4⟩]
      [("valence", [])] ∧
    ¬ (∃ s : Segment,
        List.lookup "valence" [("valence", ([] : List Segment))] = some [s] ∧
        s.value = getDefaultValueForDimension [⟨"valence", 8, some 0, some 4⟩] "valence") := by
  constructor
  · simp [checkRatingDataComplete, dimensionIsMissing, List.lookup]
  · rintro ⟨s, hs, -⟩
    simp [List.lookup] at hs
